import Mathlib

/-!
Shallow embedding of the Jarvis voice-assistant core
(`core/recorder.py`, `core/wakeword.py`, `core/asr.py`, `ui/window.py`)
together with theorems settling the specification claims.

Modelling conventions:
* Python strings are `List Char`; `str.lower` is `List.map lowerChar` with
  `lowerChar` the ASCII case map, `str.strip` is `pyStrip`, the Python `in`
  substring test is `containsSeq`.
* `int16` PCM samples are `ℤ`; a chunk read from the audio stream is a
  `List ℤ`.  Amplitude arithmetic (`b.astype("float32") / 32768.0`) is done
  exactly over `ℚ`.  The comparisons `np.sqrt m > t` / `np.sqrt m < t` of
  `record_until_silence` are embedded square-free as `rmsExceeds` /
  `rmsBelow`; lemmas `rmsExceeds_iff_sqrt` and `rmsBelow_iff_sqrt` prove the
  embeddings equivalent to the source's square-root form over `ℝ`.
  On an empty chunk `np.mean` yields NaN and both NaN comparisons are false
  in numpy; `rmsExceeds`/`rmsBelow` are accordingly false on `[]`.
* Wall-clock time in `record_until_silence` is idealised: reading one chunk
  of `chunkSamples` samples from a live 16 kHz stream takes
  `chunkSamples / SAMPLE_RATE` seconds, so after `k` chunks
  `time.time() - start_time` is `k * chunkSamples / SAMPLE_RATE`.  The
  deadline test `elapsed > max_duration` becomes
  `maxDur * SAMPLE_RATE < k * chunkSamples`.
* The unbounded `while True` loop is embedded with explicit fuel; the
  top-level entry point supplies more fuel than the deadline allows
  iterations, so the fuel-exhaustion branch is unreachable there.
* Exception-raising Python calls are `Except Unit` values supplied by the
  environment; a `try/except Exception` block is a `match` on that value.
-/

namespace Jarvis

/-! ## Python string primitives -/

/-- ASCII case map used by `str.lower()` (the configured keywords and the
wake phrase are ASCII, so the ASCII fragment of Python `lower` suffices). -/
def lowerChar (c : Char) : Char :=
  if 65 ≤ c.toNat ∧ c.toNat ≤ 90 then Char.ofNat (c.toNat + 32) else c

/-- Python `str.strip()`: remove leading and trailing whitespace. -/
def pyStrip (s : List Char) : List Char :=
  ((s.dropWhile Char.isWhitespace).reverse.dropWhile Char.isWhitespace).reverse

/-- Does `needle` occur at the head of `hay`? -/
def startsWithSeq : List Char → List Char → Bool
  | _, [] => true
  | [], _ :: _ => false
  | h :: hs, n :: ns => h == n && startsWithSeq hs ns

/-- Python substring test `needle in hay`. -/
def containsSeq : List Char → List Char → Bool
  | hay, needle =>
    startsWithSeq hay needle ||
      match hay with
      | [] => false
      | _ :: t => containsSeq t needle

/-! ## Voice-activity gate (`core/recorder.py`, RMS test) -/

def SAMPLE_RATE : ℕ := 16000

/-- Mean of the squared samples normalised to `[-1, 1]`:
`np.mean((b.astype("float32") / 32768.0) ** 2)` computed exactly over `ℚ`. -/
def meanSq (c : List ℤ) : ℚ :=
  ((c.map fun (s : ℤ) => ((s : ℚ) / 32768) ^ 2).sum) / (c.length : ℚ)

/-- Raw sum of squared samples. -/
def sumSq (c : List ℤ) : ℤ :=
  (c.map fun s => s * s).sum

/-- The source's `rms > rms_threshold` (with `rms = √(meanSq c)`), decided
by exact integer cross-multiplication: for a nonempty chunk and `t ≥ 0`,
`√(meanSq c) > t ↔ t² < meanSq c ↔ t.num² · 32768² · |c| < sumSq c · t.den²`;
for `t < 0` it holds since the RMS is nonnegative.  Lemma
`rmsExceeds_iff_sqrt` proves this equivalent to the source's square-root
form over `ℝ`.  False on the empty chunk, where numpy's RMS is NaN and
`NaN > t` is false. -/
def rmsExceeds (c : List ℤ) (t : ℚ) : Bool :=
  !c.isEmpty &&
    (decide (t.num < 0) ||
      decide (t.num ^ 2 * (32768 ^ 2 * (c.length : ℤ)) < sumSq c * (t.den : ℤ) ^ 2))

/-- The source's `rms < rms_threshold`, decided by exact integer
cross-multiplication (see `rmsBelow_iff_sqrt`).  False on the empty chunk,
where numpy's RMS is NaN and `NaN < t` is false. -/
def rmsBelow (c : List ℤ) (t : ℚ) : Bool :=
  !c.isEmpty &&
    decide (0 ≤ t.num ∧ sumSq c * (t.den : ℤ) ^ 2 < t.num ^ 2 * (32768 ^ 2 * (c.length : ℤ)))

/-- `VoiceActivityState` of the spec. -/
inductive VAState where
  | silent
  | voiced
  deriving DecidableEq, Repr

/-- Per-chunk voice-activity classification: the decision
`if rms > rms_threshold: voiced = True` of `record_until_silence`
(spec §4.1 `VoiceActivityGate.classify`). -/
def classify (c : List ℤ) (t : ℚ) : VAState :=
  if rmsExceeds c t then .voiced else .silent

/-! ## `record_until_silence` (`core/recorder.py`) -/

/-- `chunk = int(chunk_ms / 1000 * sr)` (exact for the 16 kHz rate). -/
def chunkSamples (chunk_ms : ℕ) : ℕ :=
  chunk_ms * SAMPLE_RATE / 1000

/-- One-loop body of `record_until_silence`, with explicit fuel.
Arguments after the fixed parameters: fuel, chunk index `pos`, the `voiced`
flag, `silence_count`, and the accumulated `buffer_blocks`. -/
def recordAux (stream : ℕ → List ℤ) (cs maxDur : ℕ) (t : ℚ) (silenceChunks : ℕ) :
    ℕ → ℕ → Bool → ℕ → List (List ℤ) → List (List ℤ)
  | 0, _, _, _, buf => buf
  | fuel + 1, pos, voiced, silCount, buf =>
    let b := stream pos
    let buf2 := buf ++ [b]
    if voiced then
      if rmsBelow b t then
        if silenceChunks ≤ silCount + 1 then buf2
        else if maxDur * SAMPLE_RATE < (pos + 1) * cs then buf2
        else recordAux stream cs maxDur t silenceChunks fuel (pos + 1) true (silCount + 1) buf2
      else
        if maxDur * SAMPLE_RATE < (pos + 1) * cs then buf2
        else recordAux stream cs maxDur t silenceChunks fuel (pos + 1) true 0 buf2
    else
      if maxDur * SAMPLE_RATE < (pos + 1) * cs then buf2
      else recordAux stream cs maxDur t silenceChunks fuel (pos + 1) (rmsExceeds b t) silCount buf2

/-- `record_until_silence(outfile, max_duration, chunk_ms, rms_threshold,
silence_chunks)`: the returned list of chunks whose concatenation is written
to the WAV file.  The fuel exceeds the number of iterations the deadline can
allow, so the fuel-exhaustion branch of `recordAux` is unreachable. -/
def recordUntilSilence (stream : ℕ → List ℤ) (maxDur chunk_ms : ℕ) (t : ℚ)
    (silenceChunks : ℕ) : List (List ℤ) :=
  recordAux stream (chunkSamples chunk_ms) maxDur t silenceChunks
    (maxDur * SAMPLE_RATE / chunkSamples chunk_ms + 2) 0 false 0 []

/-! ## Wakeword listener (`core/wakeword.py`) -/

/-- Abstract native keyword-spotting (Porcupine) engine handle. -/
structure PvEngine where
  frameLength : ℕ
  deriving DecidableEq, Repr

/-- Environment seen by `WakewordListener.__init__`: whether the
`pvporcupine` import succeeded, `os.path.exists`, and the outcome of each
`pvporcupine.create` signature (`.error` models a raised exception; the
Boolean argument tells whether `access_key` was passed). -/
structure PvEnv where
  pvAvailable : Bool
  pathExists : List Char → Bool
  createKeywordPaths : List (List Char) → Bool → Except Unit PvEngine
  createKeywords : List (List Char) → Bool → Except Unit PvEngine

/-- Constructor arguments of `WakewordListener`. -/
structure WwConfig where
  usePorcupineArg : Bool
  accessKey : Option (List Char)
  keywordPath : Option (List Char)
  wakewordArg : Option (List Char)
  whisperModel : Option Unit

/-- `x or None` for an optional string argument: Python treats both `None`
and `""` as falsy. -/
def normOpt (a : Option (List Char)) : Option (List Char) :=
  match a with
  | none => none
  | some s => if s = [] then none else some s

/-- `self.wakeword = (wakeword or "jarvis").lower().strip()`. -/
def normalizeWakeword (w : Option (List Char)) : List Char :=
  let raw := match w with
    | none => "jarvis".toList
    | some s => if s = [] then "jarvis".toList else s
  pyStrip (raw.map lowerChar)

/-- The `for fn in attempts` loop of `_init_porcupine`: return the first
attempt that does not raise; every raised exception just moves on. -/
def firstOk : List (Except Unit PvEngine) → Except Unit PvEngine
  | [] => .error ()
  | .ok e :: _ => .ok e
  | .error _ :: rest => firstOk rest

/-- `WakewordListener._init_porcupine` (fields already normalised):
choose `keyword_paths` when a keyword path is set and exists, else
`keywords = [self.wakeword]`; try the `access_key` signature first when an
access key is set, then the key-less signature; raise iff all attempts
raise. -/
def initPorcupine (env : PvEnv) (accessKey keywordPath : Option (List Char))
    (wakeword : List Char) : Except Unit PvEngine :=
  let usePaths : Bool := match keywordPath with
    | some p => env.pathExists p
    | none => false
  let kpaths : List (List Char) := match keywordPath with
    | some p => [p]
    | none => []
  let attempts : List (Except Unit PvEngine) :=
    (match accessKey with
      | some _ =>
        if usePaths then [env.createKeywordPaths kpaths true]
        else [env.createKeywords [wakeword] true]
      | none => []) ++
    (if usePaths then [env.createKeywordPaths kpaths false]
     else [env.createKeywords [wakeword] false])
  firstOk attempts

/-- The listener state produced by `WakewordListener.__init__`.
`thread = none` models `self._thread = None`; `thread = some alive` an
existing thread object whose `is_alive()` returns `alive`. -/
structure WakewordListener where
  wakeword : List Char
  accessKey : Option (List Char)
  keywordPath : Option (List Char)
  usePorcupine : Bool
  whisperModel : Option Unit
  porcupine : Option PvEngine
  thread : Option Bool
  stopSet : Bool

/-- `WakewordListener.__init__`: normalise the arguments, set
`use_porcupine = bool(use_porcupine) and PV_AVAILABLE`, and if Porcupine is
requested try `_init_porcupine` under `try/except Exception`, on failure
setting `self._porcupine = None` and `self.use_porcupine = False`.  The
function is total: every exception of `_init_porcupine` is caught, so
construction never raises. -/
def initListener (env : PvEnv) (cfg : WwConfig) : WakewordListener :=
  let wakeword := normalizeWakeword cfg.wakewordArg
  let accessKey := normOpt cfg.accessKey
  let keywordPath := normOpt cfg.keywordPath
  let usePorc := cfg.usePorcupineArg && env.pvAvailable
  let base : WakewordListener :=
    { wakeword := wakeword, accessKey := accessKey, keywordPath := keywordPath,
      usePorcupine := usePorc, whisperModel := cfg.whisperModel,
      porcupine := none, thread := none, stopSet := false }
  if usePorc && env.pvAvailable then
    match initPorcupine env accessKey keywordPath wakeword with
    | .ok e => { base with porcupine := some e }
    | .error _ => { base with porcupine := none, usePorcupine := false }
  else base

/-- Which loop body the thread spawned by `start()` executes. -/
inductive LoopKind where
  | porcupineLoop
  | fallbackLoop
  | noop
  deriving DecidableEq, Repr

/-- `WakewordListener._run` composed with the guard of
`_run_whisper_fallback`: Porcupine loop when `self.use_porcupine and
self._porcupine`, otherwise the Whisper fallback, which prints and returns
immediately when `self.whisper_model is None`. -/
def runKind (l : WakewordListener) : LoopKind :=
  if l.usePorcupine && l.porcupine.isSome then .porcupineLoop
  else if l.whisperModel.isNone then .noop
  else .fallbackLoop

/-- Thread-management state read and written by `start()`. -/
structure ThreadState where
  thread : Option Bool
  stopSet : Bool
  deriving DecidableEq, Repr

/-- `WakewordListener.start`: return unchanged if a live thread exists,
else clear the stop event and start one new thread.  The Boolean result
records whether a new thread was spawned. -/
def startListener (st : ThreadState) : ThreadState × Bool :=
  if st.thread = some true then (st, false)
  else ({ thread := some true, stopSet := false }, true)

/-! ### Porcupine detection loop (`_run_porcupine`) timing trace -/

/-- Observable actions of the Porcupine loop: completing the blocking read
of frame `i`, and invoking `on_wakeword` for frame `i`. -/
inductive PEvent where
  | read (i : ℕ)
  | detect (i : ℕ)
  deriving DecidableEq, Repr

/-- `PEvent.detect` recogniser. -/
def PEvent.isDetect : PEvent → Bool
  | .detect _ => true
  | .read _ => false

/-- Timed trace of `_run_porcupine`'s `while` loop on a finite run of
engine results (`self._porcupine.process(arr)` values).  Time is measured
in milliseconds; reading a frame blocks for `frameDur` ms
(`frame_length / sample_rate`, e.g. 32 ms for 512 samples at 16 kHz); a
non-negative result invokes `on_wakeword` immediately and is followed by
`time.sleep(0.5)` — 500 ms — before the next read. -/
def loopTrace (frameDur : ℤ) : List ℤ → ℤ → ℕ → List (ℤ × PEvent)
  | [], _, _ => []
  | r :: rest, now, i =>
    let tr := now + frameDur
    if 0 ≤ r then
      (tr, .read i) :: (tr, .detect i) :: loopTrace frameDur rest (tr + 500) (i + 1)
    else
      (tr, .read i) :: loopTrace frameDur rest tr (i + 1)

/-- Trace of the loop started at time `0` on frame index `0`. -/
def porcupineTrace (frameDur : ℤ) (results : List ℤ) : List (ℤ × PEvent) :=
  loopTrace frameDur results 0 0

/-! ## `transcribe_with_whisper` (`core/asr.py`) -/

/-- Outcome of `model.transcribe(path, language=...)`: a raised exception,
or a result dict whose `"text"` entry may be absent. -/
def WhisperOutcome : Type := Except Unit (Option (List Char))

/-- `transcribe_with_whisper`: `res.get("text", "").strip()` under
`try/except Exception` returning `""` on any raise. -/
def transcribeWithWhisper (m : WhisperOutcome) : List Char :=
  match m with
  | .ok res => pyStrip (res.getD [])
  | .error _ => []

/-! ## Idle-processor wake confirmation (`ui/window.py`, `_processor_loop`) -/

/-- Result of one `_processor_loop` iteration on a dequeued idle
transcript: whether the activation branch (`self._speak("Yes?")` followed by
`record_until_silence`) ran, and the `wake_confirm` value carried to the
next iteration. -/
structure ProcStep where
  activated : Bool
  counter : ℕ
  deriving DecidableEq, Repr

/-- One iteration of the wake-confirmation logic of `_processor_loop`:
increment `wake_confirm` when the lowercased transcript contains
`"jarvis"` or `"hey jarvis"`, else reset it; activate (and reset the
counter) when `wake_confirm >= 1`. -/
def processorStep (wakeConfirm : ℕ) (text : List Char) : ProcStep :=
  let lower := text.map lowerChar
  let wc :=
    if containsSeq lower "jarvis".toList || containsSeq lower "hey jarvis".toList then
      wakeConfirm + 1
    else 0
  if 1 ≤ wc then { activated := true, counter := 0 }
  else { activated := false, counter := wc }

/-! ## Supporting lemmas: the integer RMS gates match the source's
square-root comparisons -/

theorem sumSq_nonneg (c : List ℤ) : 0 ≤ sumSq c := by
  apply List.sum_nonneg
  intro x hx
  simp only [List.mem_map] at hx
  obtain ⟨s, _, rfl⟩ := hx
  exact mul_self_nonneg s

theorem sum_normSq (c : List ℤ) :
    (c.map fun (s : ℤ) => ((s : ℚ) / 32768) ^ 2).sum = (sumSq c : ℚ) / 32768 ^ 2 := by
  induction c with
  | nil => simp [sumSq]
  | cons a l ih =>
    have hs : sumSq (a :: l) = a * a + sumSq l := by
      simp [sumSq]
    rw [List.map_cons, List.sum_cons, ih, hs]
    push_cast
    ring

theorem meanSq_eq_sumSq (c : List ℤ) :
    meanSq c = (sumSq c : ℚ) / (32768 ^ 2 * (c.length : ℚ)) := by
  rw [meanSq, sum_normSq, div_div]

theorem meanSq_nonneg (c : List ℤ) : 0 ≤ meanSq c := by
  rw [meanSq_eq_sumSq]
  apply div_nonneg
  · exact_mod_cast sumSq_nonneg c
  · positivity

/-- The integer comparison inside `rmsExceeds` is the exact decision of
`t² < meanSq c` for a nonempty chunk. -/
theorem exceeds_cross_mul (c : List ℤ) (t : ℚ) (hc : c ≠ []) :
    (t.num ^ 2 * (32768 ^ 2 * (c.length : ℤ)) < sumSq c * (t.den : ℤ) ^ 2) ↔
      t ^ 2 < meanSq c := by
  have hn : 0 < (c.length : ℚ) := by
    have : 0 < c.length := List.length_pos.mpr hc
    exact_mod_cast this
  have hden : (0 : ℚ) < ((t.den : ℤ) : ℚ) ^ 2 := by
    have : (0 : ℤ) < (t.den : ℤ) := by exact_mod_cast t.pos
    positivity
  have hK : (0 : ℚ) < 32768 ^ 2 * (c.length : ℚ) := by positivity
  have ht2 : t ^ 2 = (t.num : ℚ) ^ 2 / ((t.den : ℤ) : ℚ) ^ 2 := by
    conv_lhs => rw [← Rat.num_div_den t]
    push_cast
    rw [div_pow]
  rw [meanSq_eq_sumSq, ht2, div_lt_div_iff₀ hden hK]
  constructor
  · intro h
    calc ((t.num : ℚ)) ^ 2 * (32768 ^ 2 * (c.length : ℚ))
        = (((t.num ^ 2 * (32768 ^ 2 * (c.length : ℤ))) : ℤ) : ℚ) := by push_cast; ring
      _ < (((sumSq c * (t.den : ℤ) ^ 2) : ℤ) : ℚ) := by exact_mod_cast h
      _ = (sumSq c : ℚ) * ((t.den : ℤ) : ℚ) ^ 2 := by push_cast; ring
  · intro h
    have h2 : (((t.num ^ 2 * (32768 ^ 2 * (c.length : ℤ))) : ℤ) : ℚ) <
        (((sumSq c * (t.den : ℤ) ^ 2) : ℤ) : ℚ) := by
      calc (((t.num ^ 2 * (32768 ^ 2 * (c.length : ℤ))) : ℤ) : ℚ)
          = ((t.num : ℚ)) ^ 2 * (32768 ^ 2 * (c.length : ℚ)) := by push_cast; ring
        _ < (sumSq c : ℚ) * ((t.den : ℤ) : ℚ) ^ 2 := h
        _ = (((sumSq c * (t.den : ℤ) ^ 2) : ℤ) : ℚ) := by push_cast; ring
    exact_mod_cast h2

/-- `rmsExceeds` decides exactly the source's `np.sqrt(np.mean(...)) >
rms_threshold` on any chunk the recorder can actually read (nonempty). -/
theorem rmsExceeds_iff_sqrt (c : List ℤ) (t : ℚ) (hc : c ≠ []) :
    rmsExceeds c t = true ↔ (t : ℝ) < Real.sqrt ((meanSq c : ℚ) : ℝ) := by
  have hne : c.isEmpty = false := by
    cases c with
    | nil => exact absurd rfl hc
    | cons a l => rfl
  rw [rmsExceeds, hne]
  simp only [Bool.not_false, Bool.true_and, Bool.or_eq_true, decide_eq_true_eq]
  by_cases hneg : t.num < 0
  · constructor
    · intro _
      have htneg : t < 0 := by
        by_contra hge
        exact absurd (Rat.num_nonneg.mpr (not_lt.mp hge)) (not_le.mpr hneg)
      have : (t : ℝ) < 0 := by exact_mod_cast htneg
      exact lt_of_lt_of_le this (Real.sqrt_nonneg _)
    · intro _
      exact Or.inl hneg
  · have htge : 0 ≤ t := Rat.num_nonneg.mp (not_lt.mp hneg)
    have htgeR : (0 : ℝ) ≤ (t : ℝ) := by exact_mod_cast htge
    constructor
    · intro h
      rcases h with h | h
      · exact absurd h hneg
      · rw [Real.lt_sqrt htgeR]
        have hQ : t ^ 2 < meanSq c := (exceeds_cross_mul c t hc).mp h
        calc (t : ℝ) ^ 2 = ((t ^ 2 : ℚ) : ℝ) := by push_cast; ring
          _ < ((meanSq c : ℚ) : ℝ) := by exact_mod_cast hQ
    · intro h
      rw [Real.lt_sqrt htgeR] at h
      refine Or.inr ((exceeds_cross_mul c t hc).mpr ?_)
      have : ((t ^ 2 : ℚ) : ℝ) < ((meanSq c : ℚ) : ℝ) := by
        calc ((t ^ 2 : ℚ) : ℝ) = (t : ℝ) ^ 2 := by push_cast; ring
          _ < ((meanSq c : ℚ) : ℝ) := h
      exact_mod_cast this

/-- The integer comparison inside `rmsBelow` is the exact decision of
`meanSq c < t²` for a nonempty chunk. -/
theorem below_cross_mul (c : List ℤ) (t : ℚ) (hc : c ≠ []) :
    (sumSq c * (t.den : ℤ) ^ 2 < t.num ^ 2 * (32768 ^ 2 * (c.length : ℤ))) ↔
      meanSq c < t ^ 2 := by
  have hn : 0 < (c.length : ℚ) := by
    have : 0 < c.length := List.length_pos.mpr hc
    exact_mod_cast this
  have hden : (0 : ℚ) < ((t.den : ℤ) : ℚ) ^ 2 := by
    have : (0 : ℤ) < (t.den : ℤ) := by exact_mod_cast t.pos
    positivity
  have hK : (0 : ℚ) < 32768 ^ 2 * (c.length : ℚ) := by positivity
  have ht2 : t ^ 2 = (t.num : ℚ) ^ 2 / ((t.den : ℤ) : ℚ) ^ 2 := by
    conv_lhs => rw [← Rat.num_div_den t]
    push_cast
    rw [div_pow]
  rw [meanSq_eq_sumSq, ht2, div_lt_div_iff₀ hK hden]
  constructor
  · intro h
    calc (sumSq c : ℚ) * ((t.den : ℤ) : ℚ) ^ 2
        = (((sumSq c * (t.den : ℤ) ^ 2) : ℤ) : ℚ) := by push_cast; ring
      _ < (((t.num ^ 2 * (32768 ^ 2 * (c.length : ℤ))) : ℤ) : ℚ) := by exact_mod_cast h
      _ = ((t.num : ℚ)) ^ 2 * (32768 ^ 2 * (c.length : ℚ)) := by push_cast; ring
  · intro h
    have h2 : (((sumSq c * (t.den : ℤ) ^ 2) : ℤ) : ℚ) <
        (((t.num ^ 2 * (32768 ^ 2 * (c.length : ℤ))) : ℤ) : ℚ) := by
      calc (((sumSq c * (t.den : ℤ) ^ 2) : ℤ) : ℚ)
          = (sumSq c : ℚ) * ((t.den : ℤ) : ℚ) ^ 2 := by push_cast; ring
        _ < ((t.num : ℚ)) ^ 2 * (32768 ^ 2 * (c.length : ℚ)) := h
        _ = (((t.num ^ 2 * (32768 ^ 2 * (c.length : ℤ))) : ℤ) : ℚ) := by push_cast; ring
    exact_mod_cast h2

/-- `rmsBelow` decides exactly the source's `np.sqrt(np.mean(...)) <
rms_threshold` on any chunk the recorder can actually read (nonempty). -/
theorem rmsBelow_iff_sqrt (c : List ℤ) (t : ℚ) (hc : c ≠ []) :
    rmsBelow c t = true ↔ Real.sqrt ((meanSq c : ℚ) : ℝ) < (t : ℝ) := by
  have hne : c.isEmpty = false := by
    cases c with
    | nil => exact absurd rfl hc
    | cons a l => rfl
  rw [rmsBelow, hne]
  simp only [Bool.not_false, Bool.true_and, decide_eq_true_eq]
  by_cases hneg : t.num < 0
  · constructor
    · intro h
      exact absurd h.1 (not_le.mpr hneg)
    · intro h
      have htneg : t < 0 := by
        by_contra hge
        exact absurd (Rat.num_nonneg.mpr (not_lt.mp hge)) (not_le.mpr hneg)
      have h0 : (t : ℝ) < 0 := by exact_mod_cast htneg
      exact absurd (lt_trans (lt_of_le_of_lt (Real.sqrt_nonneg _) h) h0) (lt_irrefl _)
  · have htge : 0 ≤ t := Rat.num_nonneg.mp (not_lt.mp hneg)
    rcases eq_or_lt_of_le htge with heq | hpos
    · constructor
      · intro h
        have hz : t.num = 0 := by
          rw [← heq]
          rfl
        rw [hz] at h
        have := h.2
        simp only [ne_eq, zero_pow, mul_zero, zero_mul] at this
        have hsum : 0 ≤ sumSq c * (t.den : ℤ) ^ 2 := by
          apply mul_nonneg (sumSq_nonneg c)
          positivity
        norm_num at this
        exact absurd (lt_of_le_of_lt hsum this) (lt_irrefl _)
      · intro h
        have h0 : (t : ℝ) = 0 := by
          rw [← heq]
          norm_num
        rw [h0] at h
        exact absurd (lt_of_le_of_lt (Real.sqrt_nonneg _) h) (lt_irrefl _)
    · have htposR : (0 : ℝ) < (t : ℝ) := by exact_mod_cast hpos
      rw [Real.sqrt_lt' htposR]
      constructor
      · intro h
        have hQ : meanSq c < t ^ 2 := (below_cross_mul c t hc).mp h.2
        calc ((meanSq c : ℚ) : ℝ) < ((t ^ 2 : ℚ) : ℝ) := by exact_mod_cast hQ
          _ = (t : ℝ) ^ 2 := by push_cast; ring
      · intro h
        refine ⟨not_lt.mp hneg, (below_cross_mul c t hc).mpr ?_⟩
        have : ((meanSq c : ℚ) : ℝ) < ((t ^ 2 : ℚ) : ℝ) := by
          calc ((meanSq c : ℚ) : ℝ) < (t : ℝ) ^ 2 := h
            _ = ((t ^ 2 : ℚ) : ℝ) := by push_cast; ring
        exact_mod_cast this

/-- A chunk cannot be both strictly below and strictly above the
threshold. -/
theorem rmsBelow_rmsExceeds (c : List ℤ) (t : ℚ) (h : rmsBelow c t = true) :
    rmsExceeds c t = false := by
  simp only [rmsBelow, Bool.and_eq_true, Bool.not_eq_true', decide_eq_true_eq] at h
  obtain ⟨hne, hnum, hlt⟩ := h
  rw [rmsExceeds]
  simp only [hne, Bool.not_false, Bool.true_and, Bool.or_eq_false_iff,
    decide_eq_false_iff_not, not_lt]
  exact ⟨hnum, le_of_lt hlt⟩

/-! ## Supporting lemmas: `record_until_silence` loop behaviour -/

/-- `rmsExceeds` and `rmsBelow` are mutually exclusive, other direction. -/
theorem rmsExceeds_rmsBelow (c : List ℤ) (t : ℚ) (h : rmsExceeds c t = true) :
    rmsBelow c t = false := by
  cases hb : rmsBelow c t with
  | false => rfl
  | true => rw [rmsBelow_rmsExceeds c t hb] at h; exact absurd h (by simp)

section RecorderLemmas

variable (stream : ℕ → List ℤ) (cs maxDur : ℕ) (t : ℚ) (sc : ℕ)

/-- The loop only ever appends to the buffer. -/
theorem recordAux_length_mono (fuel : ℕ) :
    ∀ pos v s buf, buf.length ≤ (recordAux stream cs maxDur t sc fuel pos v s buf).length := by
  induction fuel with
  | zero => intro pos v s buf; simp [recordAux]
  | succ n ih =>
    intro pos v s buf
    have hb : buf.length ≤ (buf ++ [stream pos]).length := by simp
    simp only [recordAux]
    split
    · split
      · split
        · simp
        · split
          · simp
          · exact le_trans hb (ih (pos + 1) true (s + 1) (buf ++ [stream pos]))
      · split
        · simp
        · exact le_trans hb (ih (pos + 1) true 0 (buf ++ [stream pos]))
    · split
      · simp
      · exact le_trans hb (ih (pos + 1) (rmsExceeds (stream pos) t) s (buf ++ [stream pos]))

/-- With at least one unit of fuel the loop reads at least one chunk. -/
theorem recordAux_length_pos (fuel pos : ℕ) (v : Bool) (s : ℕ) (buf : List (List ℤ)) :
    buf.length + 1 ≤ (recordAux stream cs maxDur t sc (fuel + 1) pos v s buf).length := by
  have hb : buf.length + 1 = (buf ++ [stream pos]).length := by simp
  simp only [recordAux]
  split
  · split
    · split
      · simp
      · split
        · simp
        · rw [hb]; exact recordAux_length_mono stream cs maxDur t sc fuel _ _ _ _
    · split
      · simp
      · rw [hb]; exact recordAux_length_mono stream cs maxDur t sc fuel _ _ _ _
  · split
    · simp
    · rw [hb]; exact recordAux_length_mono stream cs maxDur t sc fuel _ _ _ _

/-- Loop invariant: the chunk read at index `pos` was admitted by the
deadline check of the previous iteration (or is the very first chunk), so
on any exit path all but the last chunk fit inside `max_duration`. -/
theorem recordAux_deadline (fuel : ℕ) :
    ∀ pos v s buf, buf.length = pos → pos * cs ≤ maxDur * SAMPLE_RATE →
      ((recordAux stream cs maxDur t sc fuel pos v s buf).length - 1) * cs ≤
        maxDur * SAMPLE_RATE := by
  induction fuel with
  | zero =>
    intro pos v s buf hlen hpos
    simp only [recordAux]
    calc (buf.length - 1) * cs ≤ buf.length * cs := Nat.mul_le_mul_right cs (Nat.sub_le _ _)
      _ ≤ maxDur * SAMPLE_RATE := hlen ▸ hpos
  | succ n ih =>
    intro pos v s buf hlen hpos
    have hb2 : (buf ++ [stream pos]).length = pos + 1 := by simp [hlen]
    have hret : ((buf ++ [stream pos]).length - 1) * cs ≤ maxDur * SAMPLE_RATE := by
      rw [hb2]; simpa using hpos
    simp only [recordAux]
    split
    · split
      · split
        · exact hret
        · split
          · exact hret
          · exact ih (pos + 1) true (s + 1) (buf ++ [stream pos]) hb2 (not_lt.mp (by assumption))
      · split
        · exact hret
        · exact ih (pos + 1) true 0 (buf ++ [stream pos]) hb2 (not_lt.mp (by assumption))
    · split
      · exact hret
      · exact ih (pos + 1) (rmsExceeds (stream pos) t) s (buf ++ [stream pos]) hb2
          (not_lt.mp (by assumption))

/-- Pre-speech phase: a run of `n` below-threshold chunks is appended and
leaves the loop un-voiced with the silence counter untouched. -/
theorem recordAux_phaseSilent (n : ℕ) :
    ∀ f pos s buf,
      (∀ i, pos ≤ i → i < pos + n → rmsBelow (stream i) t = true) →
      (∀ i, pos ≤ i → i < pos + n → (i + 1) * cs ≤ maxDur * SAMPLE_RATE) →
      recordAux stream cs maxDur t sc (n + f) pos false s buf =
        recordAux stream cs maxDur t sc f (pos + n) false s
          (buf ++ (List.range' pos n 1).map stream) := by
  induction n with
  | zero => intro f pos s buf _ _; simp
  | succ n ih =>
    intro f pos s buf hB hD
    have hpos : pos ≤ pos := le_refl pos
    have hBe : rmsExceeds (stream pos) t = false :=
      rmsBelow_rmsExceeds _ _ (hB pos hpos (by omega))
    have hDl : ¬ (maxDur * SAMPLE_RATE < (pos + 1) * cs) :=
      not_lt.mpr (hD pos hpos (by omega))
    have hfuel : n + 1 + f = (n + f) + 1 := by omega
    rw [hfuel]
    simp only [recordAux, Bool.false_eq_true, if_false, if_neg hDl, hBe]
    rw [ih f (pos + 1) s (buf ++ [stream pos])
      (fun i h1 h2 => hB i (by omega) (by omega))
      (fun i h1 h2 => hD i (by omega) (by omega))]
    rw [List.range'_succ pos n 1]
    simp only [List.map_cons, List.append_assoc, List.singleton_append]
    have hpn : pos + 1 + n = pos + (n + 1) := by omega
    rw [hpn]

/-- First voiced chunk: flips the `voiced` flag, keeps the counter. -/
theorem recordAux_phaseFirstVoiced (f pos s : ℕ) (buf : List (List ℤ))
    (hE : rmsExceeds (stream pos) t = true)
    (hD : (pos + 1) * cs ≤ maxDur * SAMPLE_RATE) :
    recordAux stream cs maxDur t sc (f + 1) pos false s buf =
      recordAux stream cs maxDur t sc f (pos + 1) true s (buf ++ [stream pos]) := by
  simp only [recordAux, Bool.false_eq_true, if_false, if_neg (not_lt.mpr hD), hE]

/-- In-speech phase: a run of `n` above-threshold chunks is appended and
resets/keeps the silence counter at `0`. -/
theorem recordAux_phaseVoiced (n : ℕ) :
    ∀ f pos buf,
      (∀ i, pos ≤ i → i < pos + n → rmsExceeds (stream i) t = true) →
      (∀ i, pos ≤ i → i < pos + n → (i + 1) * cs ≤ maxDur * SAMPLE_RATE) →
      recordAux stream cs maxDur t sc (n + f) pos true 0 buf =
        recordAux stream cs maxDur t sc f (pos + n) true 0
          (buf ++ (List.range' pos n 1).map stream) := by
  induction n with
  | zero => intro f pos buf _ _; simp
  | succ n ih =>
    intro f pos buf hE hD
    have hBe : rmsBelow (stream pos) t = false :=
      rmsExceeds_rmsBelow _ _ (hE pos (le_refl pos) (by omega))
    have hDl : ¬ (maxDur * SAMPLE_RATE < (pos + 1) * cs) :=
      not_lt.mpr (hD pos (le_refl pos) (by omega))
    have hfuel : n + 1 + f = (n + f) + 1 := by omega
    rw [hfuel]
    simp only [recordAux, if_true, hBe, Bool.false_eq_true, if_false, if_neg hDl]
    rw [ih f (pos + 1) (buf ++ [stream pos])
      (fun i h1 h2 => hE i (by omega) (by omega))
      (fun i h1 h2 => hD i (by omega) (by omega))]
    rw [List.range'_succ pos n 1]
    simp only [List.map_cons, List.append_assoc, List.singleton_append]
    have hpn : pos + 1 + n = pos + (n + 1) := by omega
    rw [hpn]

/-- Trailing-silence phase: with the counter at `s` and `s + j + 1 = sc`,
a run of `j + 1` below-threshold chunks counts up to `sc` and the loop
breaks, returning the accumulated buffer. -/
theorem recordAux_phaseCount (j : ℕ) :
    ∀ f pos s buf, s + j + 1 = sc →
      (∀ i, pos ≤ i → i < pos + j + 1 → rmsBelow (stream i) t = true) →
      (∀ i, pos ≤ i → i < pos + j → (i + 1) * cs ≤ maxDur * SAMPLE_RATE) →
      recordAux stream cs maxDur t sc (f + j + 1) pos true s buf =
        buf ++ (List.range' pos (j + 1) 1).map stream := by
  induction j with
  | zero =>
    intro f pos s buf hsc hB _
    have hBt : rmsBelow (stream pos) t = true := hB pos (le_refl pos) (by omega)
    have hbreak : sc ≤ s + 1 := by omega
    simp only [recordAux, if_true, hBt, if_pos hbreak]
    simp [List.range'_succ]
  | succ j ih =>
    intro f pos s buf hsc hB hD
    have hBt : rmsBelow (stream pos) t = true := hB pos (le_refl pos) (by omega)
    have hnb : ¬ (sc ≤ s + 1) := by omega
    have hDl : ¬ (maxDur * SAMPLE_RATE < (pos + 1) * cs) :=
      not_lt.mpr (hD pos (le_refl pos) (by omega))
    have hfuel : f + (j + 1) + 1 = (f + j + 1) + 1 := by omega
    rw [hfuel]
    generalize hg : f + j + 1 = g
    simp only [recordAux, if_true, hBt, if_neg hnb, if_neg hDl]
    rw [← hg]
    rw [ih f (pos + 1) (s + 1) (buf ++ [stream pos]) (by omega)
      (fun i h1 h2 => hB i (by omega) (by omega))
      (fun i h1 h2 => hD i (by omega) (by omega))]
    rw [List.range'_succ pos (j + 1) 1]
    simp only [List.map_cons, List.append_assoc, List.singleton_append]

end RecorderLemmas

/-- Two adjacent index ranges concatenate. -/
theorem rangeGlue (s m k n : ℕ) (h : k = s + m) :
    List.range' s m 1 ++ List.range' k n 1 = List.range' s (m + n) 1 := by
  subst h
  have h2 := List.range'_append s m n 1
  rw [one_mul] at h2
  rw [h2, Nat.add_comm n m]

/-- The chunk size is positive for a positive `chunk_ms`. -/
theorem chunkSamples_pos (chunk_ms : ℕ) (h : 0 < chunk_ms) : 0 < chunkSamples chunk_ms := by
  rw [chunkSamples, SAMPLE_RATE]
  have : 1000 ≤ chunk_ms * 16000 := by omega
  omega

/-- C1: on a stream of `N` below-threshold chunks, then `M ≥ 1`
above-threshold chunks, then `K ≥ required_silent_chunks` below-threshold
chunks, with the deadline loose enough, `record_until_silence` returns
exactly the first `N + M + required_silent_chunks` chunks and reads no
further input. -/
theorem record_until_silence_stops_on_silence
    (stream : ℕ → List ℤ) (N M K req maxDur chunk_ms : ℕ) (t : ℚ)
    (hM : 1 ≤ M) (hreq : 1 ≤ req) (hK : req ≤ K)
    (hA : ∀ i, i < N → rmsBelow (stream i) t = true)
    (hV : ∀ i, i < N + M → N ≤ i → rmsExceeds (stream i) t = true)
    (hC : ∀ i, i < N + M + K → N + M ≤ i → rmsBelow (stream i) t = true)
    (hDeadline : (N + M + req - 1) * chunkSamples chunk_ms ≤ maxDur * SAMPLE_RATE)
    (hcm : 0 < chunk_ms) :
    recordUntilSilence stream maxDur chunk_ms t req =
      (List.range (N + M + req)).map stream := by
  have hcs : 0 < chunkSamples chunk_ms := chunkSamples_pos chunk_ms hcm
  set cs := chunkSamples chunk_ms with hcsdef
  have hT1 : N + M + req - 1 ≤ maxDur * SAMPLE_RATE / cs :=
    (Nat.le_div_iff_mul_le hcs).mpr hDeadline
  have hmono : ∀ k, k ≤ N + M + req - 1 → k * cs ≤ maxDur * SAMPLE_RATE := by
    intro k hk
    exact le_trans (Nat.mul_le_mul_right cs hk) hDeadline
  obtain ⟨f, hf⟩ : ∃ f, maxDur * SAMPLE_RATE / cs + 2 =
      N + ((M - 1 + (f + (req - 1) + 1)) + 1) := by
    refine ⟨maxDur * SAMPLE_RATE / cs + 2 - (N + M + req), ?_⟩
    omega
  rw [recordUntilSilence, ← hcsdef, hf]
  rw [recordAux_phaseSilent stream cs maxDur t req N ((M - 1 + (f + (req - 1) + 1)) + 1)
    0 0 [] (fun i h1 h2 => hA i (by omega)) (fun i h1 h2 => hmono (i + 1) (by omega))]
  rw [recordAux_phaseFirstVoiced stream cs maxDur t req (M - 1 + (f + (req - 1) + 1))
    (0 + N) 0 _ (hV (0 + N) (by omega) (by omega)) (hmono (0 + N + 1) (by omega))]
  rw [recordAux_phaseVoiced stream cs maxDur t req (M - 1) (f + (req - 1) + 1)
    (0 + N + 1) _ (fun i h1 h2 => hV i (by omega) (by omega))
    (fun i h1 h2 => hmono (i + 1) (by omega))]
  have hpos : 0 + N + 1 + (M - 1) = N + M := by omega
  rw [hpos]
  rw [recordAux_phaseCount stream cs maxDur t req (req - 1) f (N + M) 0 _ (by omega)
    (fun i h1 h2 => hC i (by omega) (by omega))
    (fun i h1 h2 => hmono (i + 1) (by omega))]
  have hone : [stream (0 + N)] = (List.range' (0 + N) 1 1).map stream := by
    simp
  have hlast : req - 1 + 1 = req := by omega
  rw [hone, hlast]
  simp only [List.nil_append, List.append_assoc, ← List.map_append]
  rw [List.range_eq_range']
  congr 1
  rw [rangeGlue (0 + N + 1) (M - 1) (N + M) req (by omega)]
  rw [rangeGlue (0 + N) 1 (0 + N + 1) (M - 1 + req) (by omega)]
  rw [rangeGlue 0 N (0 + N) (1 + (M - 1 + req)) (by omega)]
  congr 1
  omega

/-- C2: for every stream, after at most one chunk past the `max_duration`
deadline the recorder has stopped; the recorded clip has at least one chunk
and spans at most `max_duration` plus one chunk duration of audio
(lengths measured in samples at 16 kHz). -/
theorem record_until_silence_bounded
    (stream : ℕ → List ℤ) (maxDur chunk_ms : ℕ) (t : ℚ) (silenceChunks : ℕ)
    (_hcm : 0 < chunk_ms) :
    1 ≤ (recordUntilSilence stream maxDur chunk_ms t silenceChunks).length ∧
    ((recordUntilSilence stream maxDur chunk_ms t silenceChunks).length - 1) *
        chunkSamples chunk_ms ≤ maxDur * SAMPLE_RATE ∧
    (recordUntilSilence stream maxDur chunk_ms t silenceChunks).length *
        chunkSamples chunk_ms ≤ maxDur * SAMPLE_RATE + chunkSamples chunk_ms := by
  set cs := chunkSamples chunk_ms with hcsdef
  have h1 : 1 ≤ (recordUntilSilence stream maxDur chunk_ms t silenceChunks).length := by
    rw [recordUntilSilence, ← hcsdef]
    have := recordAux_length_pos stream cs maxDur t silenceChunks
      (maxDur * SAMPLE_RATE / cs + 1) 0 false 0 []
    simpa using this
  have h2 : ((recordUntilSilence stream maxDur chunk_ms t silenceChunks).length - 1) * cs ≤
      maxDur * SAMPLE_RATE := by
    rw [recordUntilSilence, ← hcsdef]
    exact recordAux_deadline stream cs maxDur t silenceChunks
      (maxDur * SAMPLE_RATE / cs + 2) 0 false 0 [] rfl (by simp)
  refine ⟨h1, h2, ?_⟩
  have hL : (recordUntilSilence stream maxDur chunk_ms t silenceChunks).length =
      ((recordUntilSilence stream maxDur chunk_ms t silenceChunks).length - 1) + 1 := by
    omega
  rw [hL, Nat.add_mul, one_mul]
  exact Nat.add_le_add h2 (le_refl cs)

/-- Witness for C1: one silent chunk, one voiced chunk, two trailing silent
chunks, `required_silent_chunks = 2`: the clip is exactly the first four
chunks. -/
theorem record_until_silence_stops_on_silence_witness :
    (1 : ℕ) ≤ 1 ∧ (1 : ℕ) ≤ 2 ∧ (2 : ℕ) ≤ 2 ∧
    (∀ i, i < 1 →
      rmsBelow ((fun j => if j = 1 then [(16384 : ℤ)] else [0]) i) (mkRat 3 250) = true) ∧
    (∀ i, i < 1 + 1 → 1 ≤ i →
      rmsExceeds ((fun j => if j = 1 then [(16384 : ℤ)] else [0]) i) (mkRat 3 250) = true) ∧
    (∀ i, i < 1 + 1 + 2 → 1 + 1 ≤ i →
      rmsBelow ((fun j => if j = 1 then [(16384 : ℤ)] else [0]) i) (mkRat 3 250) = true) ∧
    (1 + 1 + 2 - 1) * chunkSamples 300 ≤ 20 * SAMPLE_RATE ∧ 0 < 300 ∧
    recordUntilSilence (fun j => if j = 1 then [(16384 : ℤ)] else [0]) 20 300 (mkRat 3 250) 2 =
      (List.range (1 + 1 + 2)).map (fun j => if j = 1 then [(16384 : ℤ)] else [0]) :=
  ⟨by decide, by decide, by decide, by decide, by decide, by decide, by decide, by decide,
    record_until_silence_stops_on_silence (fun j => if j = 1 then [(16384 : ℤ)] else [0])
      1 1 2 2 20 300 (mkRat 3 250) (by decide) (by decide) (by decide) (by decide)
      (by decide) (by decide) (by decide) (by decide)⟩

/-- Witness for C2 at an all-silent stream with `max_duration = 1` and
300 ms chunks. -/
theorem record_until_silence_bounded_witness :
    (0 : ℕ) < 300 ∧
    (1 ≤ (recordUntilSilence (fun _ => [(0 : ℤ)]) 1 300 (mkRat 3 250) 3).length ∧
    ((recordUntilSilence (fun _ => [(0 : ℤ)]) 1 300 (mkRat 3 250) 3).length - 1) *
        chunkSamples 300 ≤ 1 * SAMPLE_RATE ∧
    (recordUntilSilence (fun _ => [(0 : ℤ)]) 1 300 (mkRat 3 250) 3).length *
        chunkSamples 300 ≤ 1 * SAMPLE_RATE + chunkSamples 300) :=
  ⟨by decide,
    record_until_silence_bounded (fun _ => [(0 : ℤ)]) 1 300 (mkRat 3 250) 3 (by decide)⟩

/-- C3 counterexample: a full-scale chunk has RMS exactly equal to a
threshold of `1`, i.e. RMS at-or-above the threshold, yet the
classification is SILENT — the source's `rms > rms_threshold` test is
strict, so "RMS at or above the threshold is VOICED" fails at equality. -/
theorem classify_at_threshold_silent :
    (((1 : ℚ) : ℝ)) ≤ Real.sqrt ((meanSq [(-32768 : ℤ)] : ℚ) : ℝ) ∧
    classify [(-32768 : ℤ)] 1 = VAState.silent := by
  constructor
  · have hm : meanSq [(-32768 : ℤ)] = 1 := by
      norm_num [meanSq]
    rw [hm]
    norm_num [Real.sqrt_one]
  · decide

/-- C3 (amended): for every nonempty chunk, RMS strictly above the
threshold classifies VOICED and RMS at or below the threshold classifies
SILENT; an all-zero chunk is classified SILENT whenever the threshold is
nonnegative (and classification is total — it never errors). -/
theorem classify_spec (c : List ℤ) (t : ℚ) (hc : c ≠ []) :
    ((t : ℝ) < Real.sqrt ((meanSq c : ℚ) : ℝ) → classify c t = VAState.voiced) ∧
    (Real.sqrt ((meanSq c : ℚ) : ℝ) ≤ (t : ℝ) → classify c t = VAState.silent) ∧
    (0 ≤ t → classify (List.replicate c.length 0) t = VAState.silent) := by
  refine ⟨?_, ?_, ?_⟩
  · intro h
    rw [classify, if_pos ((rmsExceeds_iff_sqrt c t hc).mpr h)]
  · intro h
    have hf : rmsExceeds c t = false := by
      cases he : rmsExceeds c t with
      | false => rfl
      | true =>
        exact absurd ((rmsExceeds_iff_sqrt c t hc).mp he) (not_lt.mpr h)
    rw [classify, hf]
    simp
  · intro ht
    have hnum : ¬ (t.num < 0) := not_lt.mpr (Rat.num_nonneg.mpr ht)
    have hss : sumSq (List.replicate c.length (0 : ℤ)) = 0 := by
      simp [sumSq, List.map_replicate]
    have hcmp : ¬ (t.num ^ 2 * (32768 ^ 2 * ((List.replicate c.length (0 : ℤ)).length : ℤ)) <
        sumSq (List.replicate c.length (0 : ℤ)) * (t.den : ℤ) ^ 2) := by
      rw [hss, zero_mul]
      push_neg
      positivity
    rw [classify, rmsExceeds]
    simp [hnum, hcmp]
    intro _
    rw [hss, zero_mul]
    positivity

/-- Witness for the amended C3 at a loud chunk and threshold `0`. -/
theorem classify_spec_witness :
    ([(16384 : ℤ)] ≠ ([] : List ℤ)) ∧ classify [(16384 : ℤ)] 0 = VAState.voiced :=
  ⟨by decide,
    (classify_spec [(16384 : ℤ)] 0 (by decide)).1
      (by
        have h0 : (0 : ℝ) < ((meanSq [(16384 : ℤ)] : ℚ) : ℝ) := by
          norm_num [meanSq]
        simpa using Real.sqrt_pos.mpr h0)⟩

/-- C4: the listener constructor is total (every `pvporcupine.create`
failure is caught): whenever `_init_porcupine` raises, the constructor
deterministically switches to fallback mode, and whenever the constructed
listener is still in native mode it actually holds an engine — it is never
left configured with no detection strategy. -/
theorem initListener_engine_or_fallback (env : PvEnv) (cfg : WwConfig) :
    (∀ e, initPorcupine env (normOpt cfg.accessKey) (normOpt cfg.keywordPath)
        (normalizeWakeword cfg.wakewordArg) = .error e →
      (initListener env cfg).usePorcupine = false) ∧
    ((initListener env cfg).usePorcupine = true →
      ((initListener env cfg).porcupine).isSome = true) := by
  by_cases hup : (cfg.usePorcupineArg && env.pvAvailable) = true
  · rw [Bool.and_eq_true] at hup
    obtain ⟨hu1, hpv⟩ := hup
    cases hpi : initPorcupine env (normOpt cfg.accessKey) (normOpt cfg.keywordPath)
        (normalizeWakeword cfg.wakewordArg) with
    | ok e =>
      refine ⟨fun e' he' => Except.noConfusion he', fun _ => ?_⟩
      simp [initListener, hu1, hpv, hpi]
    | error e0 =>
      refine ⟨fun e' he' => ?_, fun h => ?_⟩
      · simp [initListener, hu1, hpv, hpi]
      · exfalso
        rw [initListener] at h
        simp [hu1, hpv, hpi] at h
  · have hfalse : (cfg.usePorcupineArg && env.pvAvailable) = false := by
      cases hval : (cfg.usePorcupineArg && env.pvAvailable) with
      | false => rfl
      | true => exact absurd hval hup
    refine ⟨fun e' he' => ?_, fun h => ?_⟩
    · simp [initListener, hfalse]
    · exfalso
      rw [initListener] at h
      simp [hfalse] at h

/-- Witness for C4: Porcupine importable but every `create` signature
raises; the listener ends in fallback mode. -/
theorem initListener_engine_or_fallback_witness :
    initPorcupine
        { pvAvailable := true, pathExists := fun _ => false,
          createKeywordPaths := fun _ _ => .error (),
          createKeywords := fun _ _ => .error () }
        (normOpt none) (normOpt none) (normalizeWakeword none) = .error () ∧
    (initListener
        { pvAvailable := true, pathExists := fun _ => false,
          createKeywordPaths := fun _ _ => .error (),
          createKeywords := fun _ _ => .error () }
        { usePorcupineArg := true, accessKey := none, keywordPath := none,
          wakewordArg := none, whisperModel := none }).usePorcupine = false :=
  ⟨rfl,
    (initListener_engine_or_fallback
        { pvAvailable := true, pathExists := fun _ => false,
          createKeywordPaths := fun _ _ => .error (),
          createKeywords := fun _ _ => .error () }
        { usePorcupineArg := true, accessKey := none, keywordPath := none,
          wakewordArg := none, whisperModel := none }).1 () rfl⟩

/-- C5: in fallback mode (no usable native engine) with no Whisper model,
the thread body started by `start()` runs no detection loop at all: it
prints a notice and returns. -/
theorem fallback_without_model_noop (l : WakewordListener)
    (h1 : (l.usePorcupine && l.porcupine.isSome) = false)
    (h2 : l.whisperModel = none) :
    runKind l = LoopKind.noop := by
  rw [runKind, h1]
  simp [h2]

/-- Witness for C5. -/
theorem fallback_without_model_noop_witness :
    (let l : WakewordListener :=
      { wakeword := "jarvis".toList, accessKey := none, keywordPath := none,
        usePorcupine := false, whisperModel := none, porcupine := none,
        thread := none, stopSet := false }
    (l.usePorcupine && l.porcupine.isSome) = false ∧ l.whisperModel = none ∧
      runKind l = LoopKind.noop) :=
  ⟨by decide, rfl,
    fallback_without_model_noop
      { wakeword := "jarvis".toList, accessKey := none, keywordPath := none,
        usePorcupine := false, whisperModel := none, porcupine := none,
        thread := none, stopSet := false } (by decide) rfl⟩

/-- C7: a single positive match suffices in the idle processor loop —
whatever the prior confirmation-counter value, an iteration whose
lowercased transcript contains "jarvis" runs the activation branch on that
same iteration and resets the counter. -/
theorem processor_single_match_activates (wc : ℕ) (text : List Char)
    (h : containsSeq (text.map lowerChar) "jarvis".toList = true) :
    processorStep wc text = { activated := true, counter := 0 } := by
  have h2 : (containsSeq (text.map lowerChar) "jarvis".toList ||
      containsSeq (text.map lowerChar) "hey jarvis".toList) = true := by
    rw [h]
    rfl
  rw [processorStep]
  simp only [h2, if_true]
  simp

/-- Witness for C7 with a nonzero prior counter value. -/
theorem processor_single_match_activates_witness :
    containsSeq ("Hey JARVIS, lights".toList.map lowerChar) "jarvis".toList = true ∧
    processorStep 5 "Hey JARVIS, lights".toList = { activated := true, counter := 0 } :=
  ⟨by decide, processor_single_match_activates 5 "Hey JARVIS, lights".toList (by decide)⟩

/-- C8: `transcribe_with_whisper` returns the empty string whenever the
model's `transcribe` raises, and the stripped `"text"` field (default `""`)
on success; it is total, so inference failure surfaces as an empty
transcript rather than an exception. -/
theorem transcribe_with_whisper_contract (m : WhisperOutcome) :
    (∀ e, m = .error e → transcribeWithWhisper m = []) ∧
    (∀ r, m = .ok r → transcribeWithWhisper m = pyStrip (r.getD [])) := by
  constructor
  · rintro e rfl
    rfl
  · rintro r rfl
    rfl

/-- Witness for C8 at a raising model. -/
theorem transcribe_with_whisper_contract_witness :
    transcribeWithWhisper (Except.error () : WhisperOutcome) = [] :=
  (transcribe_with_whisper_contract (Except.error () : WhisperOutcome)).1 () rfl

/-- C9: `start()` with a live thread is a no-op (state unchanged, no new
thread, stop flag untouched); otherwise exactly one new thread starts and
the stop flag is cleared. -/
theorem start_at_most_one_thread (st : ThreadState) :
    (st.thread = some true → startListener st = (st, false)) ∧
    (st.thread ≠ some true →
      startListener st = ({ thread := some true, stopSet := false }, true)) := by
  constructor
  · intro h
    rw [startListener, if_pos h]
  · intro h
    rw [startListener, if_neg h]

/-- Witness for C9 at a listener whose thread is alive and whose stop flag
is set: `start()` changes nothing. -/
theorem start_at_most_one_thread_witness :
    startListener { thread := some true, stopSet := true } =
      ({ thread := some true, stopSet := true }, false) :=
  (start_at_most_one_thread { thread := some true, stopSet := true }).1 rfl

/-! ## Supporting lemmas: character case map and `strip` -/

/-- Shifting an upper-case ASCII code point by 32 gives a valid code point
with the expected value. -/
theorem charOfNat_shift_toNat :
    ∀ n, n < 91 → 65 ≤ n → (Char.ofNat (n + 32)).toNat = n + 32 := by
  decide

/-- The lower-case image of an upper-case ASCII letter is not whitespace. -/
theorem charOfNat_shift_not_ws :
    ∀ n, n < 91 → 65 ≤ n → (Char.ofNat (n + 32)).isWhitespace = false := by
  decide

/-- An upper-case ASCII letter is not whitespace. -/
theorem ws_false_of_upper (ch : Char) (h1 : 65 ≤ ch.toNat) (h2 : ch.toNat ≤ 90) :
    ch.isWhitespace = false := by
  rw [Char.isWhitespace]
  have hsp : ¬ (ch = ' ') := fun he => absurd h1 (by subst he; decide)
  have htb : ¬ (ch = '\t') := fun he => absurd h1 (by subst he; decide)
  have hcr : ¬ (ch = '\x0d') := fun he => absurd h1 (by subst he; decide)
  have hlf : ¬ (ch = '\n') := fun he => absurd h1 (by subst he; decide)
  simp [hsp, htb, hcr, hlf]

/-- `lowerChar` is idempotent. -/
theorem lowerChar_idem (ch : Char) : lowerChar (lowerChar ch) = lowerChar ch := by
  by_cases h : 65 ≤ ch.toNat ∧ ch.toNat ≤ 90
  · have hinner : lowerChar ch = Char.ofNat (ch.toNat + 32) := by
      rw [lowerChar, if_pos h]
    have htn : (lowerChar ch).toNat = ch.toNat + 32 := by
      rw [hinner]
      exact charOfNat_shift_toNat ch.toNat (by omega) h.1
    rw [lowerChar]
    rw [if_neg]
    rw [htn]
    omega
  · have hid : lowerChar ch = ch := by
      rw [lowerChar, if_neg h]
    rw [hid, hid]

/-- `lowerChar` preserves whitespace-ness. -/
theorem lowerChar_isWhitespace (ch : Char) :
    (lowerChar ch).isWhitespace = ch.isWhitespace := by
  by_cases h : 65 ≤ ch.toNat ∧ ch.toNat ≤ 90
  · have h1 : ch.isWhitespace = false := ws_false_of_upper ch h.1 h.2
    have h2 : (lowerChar ch).isWhitespace = false := by
      rw [lowerChar, if_pos h]
      exact charOfNat_shift_not_ws ch.toNat (by omega) h.1
    rw [h1, h2]
  · rw [lowerChar, if_neg h]

/-- An element that fails the predicate survives `dropWhile`. -/
theorem mem_dropWhile_of_not {α : Type} (p : α → Bool) :
    ∀ (l : List α) (x : α), x ∈ l → p x = false → x ∈ l.dropWhile p := by
  intro l
  induction l with
  | nil => intro x hx _; exact absurd hx (List.not_mem_nil x)
  | cons a tl ih =>
    intro x hx hp
    cases hpa : p a with
    | false =>
      rw [List.dropWhile_cons_of_neg (by rw [hpa]; exact Bool.false_ne_true)]
      exact hx
    | true =>
      rw [List.dropWhile_cons_of_pos (by rw [hpa])]
      rcases List.mem_cons.mp hx with rfl | hxtl
      · rw [hpa] at hp
        exact absurd hp (by simp)
      · exact ih x hxtl hp

/-- `strip` keeps any non-whitespace element, so the result is nonempty. -/
theorem pyStrip_ne_nil_of_mem (l : List Char) (x : Char) (hx : x ∈ l)
    (hw : x.isWhitespace = false) : pyStrip l ≠ [] := by
  have h1 : x ∈ l.dropWhile Char.isWhitespace :=
    mem_dropWhile_of_not Char.isWhitespace l x hx hw
  have h2 : x ∈ (l.dropWhile Char.isWhitespace).reverse := List.mem_reverse.mpr h1
  have h3 : x ∈ (l.dropWhile Char.isWhitespace).reverse.dropWhile Char.isWhitespace :=
    mem_dropWhile_of_not Char.isWhitespace _ x h2 hw
  have h4 : x ∈ pyStrip l := by
    rw [pyStrip]
    exact List.mem_reverse.mpr h3
  exact List.ne_nil_of_mem h4

/-- `strip` only removes elements. -/
theorem mem_of_mem_pyStrip (l : List Char) (x : Char) (hx : x ∈ pyStrip l) : x ∈ l := by
  rw [pyStrip] at hx
  have h1 := List.mem_reverse.mp hx
  have h2 := (List.dropWhile_sublist Char.isWhitespace).mem h1
  have h3 := List.mem_reverse.mp h2
  exact (List.dropWhile_sublist Char.isWhitespace).mem h3

/-- C10 counterexample: a whitespace-only wakeword argument is truthy in
Python, so the substitution of `"jarvis"` does not fire, and lower+strip
yields the empty keyword — the normalised keyword is not always
non-empty. -/
theorem normalizeWakeword_whitespace_empty :
    (some [' '] : Option (List Char)) ≠ none ∧ ([' '] : List Char) ≠ [] ∧
    normalizeWakeword (some [' ']) = [] := by
  decide

/-- C10 (amended): the constructor lowercases and strips the supplied
wakeword and substitutes `"jarvis"` when the argument is `None` or empty;
the keyword used for fallback matching is always lowercase, and it is
non-empty whenever the argument is `None`, empty, or contains at least one
non-whitespace character (a whitespace-only argument yields the empty
keyword). -/
theorem normalizeWakeword_spec (w : Option (List Char)) :
    (∀ ch ∈ normalizeWakeword w, lowerChar ch = ch) ∧
    ((w = none ∨ w = some []) → normalizeWakeword w = "jarvis".toList) ∧
    ((w = none ∨ w = some []) → normalizeWakeword w ≠ []) ∧
    (∀ s, w = some s → ∀ ch ∈ s, ch.isWhitespace = false → normalizeWakeword w ≠ []) := by
  have hsub : (w = none ∨ w = some []) → normalizeWakeword w = "jarvis".toList := by
    rintro (rfl | rfl) <;> decide
  refine ⟨?_, hsub, ?_, ?_⟩
  · intro ch hch
    have hmem : ch ∈ (match w with
        | none => "jarvis".toList
        | some s => if s = [] then "jarvis".toList else s).map lowerChar := by
      simp only [normalizeWakeword] at hch
      exact mem_of_mem_pyStrip _ ch hch
    obtain ⟨d, _, rfl⟩ := List.mem_map.mp hmem
    exact lowerChar_idem d
  · intro h
    rw [hsub h]
    decide
  · rintro s rfl ch hch hws
    have hsne : s ≠ [] := by
      rintro rfl
      exact absurd hch (List.not_mem_nil ch)
    have hraw : normalizeWakeword (some s) = pyStrip (s.map lowerChar) := by
      simp only [normalizeWakeword]
      simp [hsne]
    rw [hraw]
    refine pyStrip_ne_nil_of_mem _ (lowerChar ch) (List.mem_map_of_mem lowerChar hch) ?_
    rw [lowerChar_isWhitespace, hws]

/-- Witness for the amended C10: a mixed-case padded argument yields a
lowercase nonempty keyword. -/
theorem normalizeWakeword_spec_witness :
    ((some " JarVis ".toList : Option (List Char)) = some " JarVis ".toList) ∧
    ('J' ∈ " JarVis ".toList) ∧ ('J'.isWhitespace = false) ∧
    normalizeWakeword (some " JarVis ".toList) ≠ [] :=
  ⟨rfl, by decide, by decide,
    (normalizeWakeword_spec (some " JarVis ".toList)).2.2.2 " JarVis ".toList rfl
      'J' (by decide) (by decide)⟩

/-! ## Supporting lemmas: Porcupine loop timing -/

/-- Every event of a loop trace started at `now` happens at `now + fd` or
later (the first read must complete first). -/
theorem loopTrace_time_lb (fd : ℤ) (hfd : 0 ≤ fd) :
    ∀ (rs : List ℤ) (now : ℤ) (i : ℕ), ∀ p ∈ loopTrace fd rs now i, now + fd ≤ p.1 := by
  intro rs
  induction rs with
  | nil => intro now i p hp; exact absurd hp (List.not_mem_nil p)
  | cons r rest ih =>
    intro now i p hp
    rw [loopTrace] at hp
    by_cases h0 : 0 ≤ r
    · rw [if_pos h0] at hp
      rcases List.mem_cons.mp hp with rfl | hp2
      · exact le_refl _
      · rcases List.mem_cons.mp hp2 with rfl | hp3
        · exact le_refl _
        · have := ih (now + fd + 500) (i + 1) p hp3
          omega
    · rw [if_neg h0] at hp
      rcases List.mem_cons.mp hp with rfl | hp2
      · exact le_refl _
      · have := ih (now + fd) (i + 1) p hp2
        omega

/-- After any `on_wakeword` invocation, every later event of the trace —
in particular the next frame read — happens at least 500 ms later: the
loop sleeps through the cooldown. -/
theorem loopTrace_cooldown (fd : ℤ) (hfd : 0 ≤ fd) :
    ∀ (rs : List ℤ) (now : ℤ) (i : ℕ),
      List.Pairwise (fun a b : ℤ × PEvent => a.2.isDetect = true → a.1 + 500 ≤ b.1)
        (loopTrace fd rs now i) := by
  intro rs
  induction rs with
  | nil => intro now i; exact List.Pairwise.nil
  | cons r rest ih =>
    intro now i
    rw [loopTrace]
    by_cases h0 : 0 ≤ r
    · rw [if_pos h0]
      refine List.pairwise_cons.mpr ⟨?_, List.pairwise_cons.mpr ⟨?_, ih _ _⟩⟩
      · intro y _ habs
        exact absurd habs (by simp [PEvent.isDetect])
      · intro y hy _
        have := loopTrace_time_lb fd hfd rest (now + fd + 500) (i + 1) y hy
        omega
    · rw [if_neg h0]
      refine List.pairwise_cons.mpr ⟨?_, ih _ _⟩
      intro y _ habs
      exact absurd habs (by simp [PEvent.isDetect])

/-- Every non-negative engine result produces an `on_wakeword` invocation
in the trace: detections are never ignored. -/
theorem loopTrace_detect_mem (fd : ℤ) :
    ∀ (rs : List ℤ) (now : ℤ) (i j : ℕ) (h : j < rs.length),
      0 ≤ rs.get ⟨j, h⟩ →
        ∃ tm, (tm, PEvent.detect (i + j)) ∈ loopTrace fd rs now i := by
  intro rs
  induction rs with
  | nil => intro now i j h; exact absurd h (by simp)
  | cons r rest ih =>
    intro now i j h hr
    cases j with
    | zero =>
      have h0 : 0 ≤ r := hr
      refine ⟨now + fd, ?_⟩
      rw [loopTrace, if_pos h0]
      simp
    | succ j =>
      have hj : j < rest.length := by
        simpa using h
      have hr2 : 0 ≤ rest.get ⟨j, hj⟩ := hr
      have hidx : i + 1 + j = i + (j + 1) := by omega
      rw [loopTrace]
      by_cases h0 : 0 ≤ r
      · obtain ⟨tm, htm⟩ := ih (now + fd + 500) (i + 1) j hj hr2
        rw [hidx] at htm
        exact ⟨tm, by rw [if_pos h0]; exact List.mem_cons_of_mem _ (List.mem_cons_of_mem _ htm)⟩
      · obtain ⟨tm, htm⟩ := ih (now + fd) (i + 1) j hj hr2
        rw [hidx] at htm
        exact ⟨tm, by rw [if_neg h0]; exact List.mem_cons_of_mem _ htm⟩

/-- C6 counterexample: with 32 ms frames and two consecutive detecting
frames, the wakeword fires at t = 32 ms and then the loop sleeps: no event
at all — in particular no frame read — occurs strictly inside the cooldown
window (32 ms, 532 ms), refuting "new frames are still consumed" during the
cooldown (frames are consumed only after it ends, and their detections are
processed, not ignored). -/
theorem porcupine_cooldown_consumes_no_frames :
    ((32 : ℤ), PEvent.detect 0) ∈ porcupineTrace 32 [0, 0] ∧
    ((564 : ℤ), PEvent.read 1) ∈ porcupineTrace 32 [0, 0] ∧
    ((564 : ℤ), PEvent.detect 1) ∈ porcupineTrace 32 [0, 0] ∧
    (porcupineTrace 32 [0, 0]).all
      (fun p => !((32 : ℤ) < p.1 && p.1 < 32 + 500)) = true := by
  decide

/-- C6 (amended): every non-negative engine result invokes `on_wakeword`,
and after each invocation the loop sleeps at least 500 ms, so no frame is
read — and hence no detection can occur — before the cooldown elapses;
consecutive detections are therefore at least 500 ms apart. -/
theorem porcupine_detect_cooldown (fd : ℤ) (hfd : 0 ≤ fd) (results : List ℤ) :
    List.Pairwise (fun a b : ℤ × PEvent => a.2.isDetect = true → a.1 + 500 ≤ b.1)
      (porcupineTrace fd results) ∧
    (∀ j (h : j < results.length), 0 ≤ results.get ⟨j, h⟩ →
      ∃ tm, (tm, PEvent.detect j) ∈ porcupineTrace fd results) := by
  refine ⟨loopTrace_cooldown fd hfd results 0 0, ?_⟩
  intro j h hr
  have hm := loopTrace_detect_mem fd results 0 0 j h hr
  simpa using hm

/-- Witness for the amended C6 at 32 ms frames and two detecting frames. -/
theorem porcupine_detect_cooldown_witness :
    (0 : ℤ) ≤ 32 ∧
    List.Pairwise (fun a b : ℤ × PEvent => a.2.isDetect = true → a.1 + 500 ≤ b.1)
      (porcupineTrace 32 [0, 0]) :=
  ⟨by decide, (porcupine_detect_cooldown 32 (by decide) [0, 0]).1⟩

end Jarvis
